import Mathlib

/-!
Shallow embedding of the `localdb` storage core (src/include/localdb.h and
the committed localdb.cc, the variant whose `beginRead`/`beginWrite`
signatures match the header).  Strings are modelled as raw byte lists,
`double` payloads as their IEEE-754 bit pattern, and the lock primitives
(which the committed code makes unconditionally succeed) as the constant
`true` they return; all operations are sequentialised, locks have no
observable effect in a single-threaded run.
-/

namespace LocalDB

/-- `Column::Type` enum: INT=0, FLOAT=1, TEXT=2, BLOB=3. -/
inductive ColType
  | int
  | float
  | text
  | blob
deriving DecidableEq, Repr

/-- Numeric tag written by the serializer for a `Column::Type` (4-byte enum). -/
def ColType.tag : ColType → Nat
  | .int => 0
  | .float => 1
  | .text => 2
  | .blob => 3

/-- `struct Column`: name (raw bytes of the std::string), type, three flags. -/
structure Column where
  name : List Nat
  type : ColType
  primary_key : Bool
  not_null : Bool
  unique : Bool
deriving DecidableEq, Repr

def defaultColumn : Column := ⟨[], .int, false, false, false⟩

/-- `class Value`: tagged union. `intV` holds the C++ `int` (32-bit) value,
`floatV` holds the IEEE-754 bit pattern of the C++ `double`, `textV` and
`blobV` hold raw byte sequences.  Enum tags: NULL_TYPE=0, INT=1, FLOAT=2,
TEXT=3, BLOB=4. -/
inductive Value
  | nullV
  | intV (n : Int)
  | floatV (bits : Nat)
  | textV (s : List Nat)
  | blobV (b : List Nat)
deriving DecidableEq, Repr

/-- A double bit pattern is a NaN iff the exponent field (bits 52..62) is all
ones and the mantissa (bits 0..51) is nonzero. -/
def floatIsNaN (bits : Nat) : Bool :=
  (bits / 2 ^ 52) % 2 ^ 11 == 2047 && bits % 2 ^ 52 != 0

/-- A double bit pattern is a zero iff it is +0.0 (all zeros) or -0.0 (sign
bit only). -/
def floatIsZero (bits : Nat) : Bool :=
  bits == 0 || bits == 2 ^ 63

/-- IEEE-754 `==` on doubles, expressed on bit patterns: NaN compares unequal
to everything, +0.0 equals -0.0, otherwise equality of bit patterns. -/
def floatEqBits (a b : Nat) : Bool :=
  if floatIsNaN a || floatIsNaN b then false
  else a == b || (floatIsZero a && floatIsZero b)

/-- `Value::operator==`: differing tags compare unequal, same tags compare
their payloads (doubles by IEEE equality). -/
def Value.beq : Value → Value → Bool
  | .nullV, .nullV => true
  | .intV a, .intV b => a == b
  | .floatV a, .floatV b => floatEqBits a b
  | .textV a, .textV b => a == b
  | .blobV a, .blobV b => a == b
  | _, _ => false

/-- `Row` = `std::vector<Value>`. -/
abbrev Row := List Value

/-- `std::vector<Value>::operator==`: same length and elementwise
`Value::operator==`. -/
def rowBeq : Row → Row → Bool
  | [], [] => true
  | x :: xs, y :: ys => Value.beq x y && rowBeq xs ys
  | _, _ => false

/-- `class Table`: name, fixed column list, ordered row store. -/
structure Table where
  name : List Nat
  columns : List Column
  rows : List Row
deriving DecidableEq, Repr

/-- `Table::Table`: counts primary-key columns and throws
("Table can have at most one primary key") when more than one;
`none` models the thrown `std::runtime_error`. -/
def Table.mk? (name : List Nat) (columns : List Column) : Option Table :=
  if columns.countP (fun c => c.primary_key) > 1 then none
  else some ⟨name, columns, []⟩

/-- `Table::findPrimaryKeyIndex`: index of the first column flagged
primary_key (the C++ returns -1, modelled as `none`, when there is none). -/
def Table.findPrimaryKeyIndex (t : Table) : Option Nat :=
  t.columns.findIdx? (fun c => c.primary_key)

/-- The primary-key scan of `Table::insert`: some existing row's value in the
primary-key column compares equal to the candidate row's. -/
def pkConflict (t : Table) (row : Row) : Bool :=
  match t.findPrimaryKeyIndex with
  | some i => t.rows.any (fun er =>
      Value.beq (er.getD i Value.nullV) (row.getD i Value.nullV))
  | none => false

/-- The unique-constraint scan of `Table::insert`: some column flagged
`unique` has an existing row whose value there compares equal to the
candidate row's. -/
def uniqueConflict (t : Table) (row : Row) : Bool :=
  (List.range t.columns.length).any (fun i =>
    (t.columns.getD i defaultColumn).unique &&
      t.rows.any (fun er =>
        Value.beq (er.getD i Value.nullV) (row.getD i Value.nullV)))

/-- `Table::insert`: arity check, then primary-key scan, then unique scans;
on success the row is appended at the end of the store. -/
def Table.insert (t : Table) (row : Row) : Bool × Table :=
  if row.length ≠ t.columns.length then (false, t)
  else if pkConflict t row then (false, t)
  else if uniqueConflict t row then (false, t)
  else (true, { t with rows := t.rows ++ [row] })

/-- The row loop of `Table::update`: each stored row for which the predicate
holds is overwritten by `row`; the flag records whether any row matched. -/
def updateRows (row : Row) (p : Row → Bool) : List Row → List Row × Bool
  | [] => ([], false)
  | r :: rs =>
    let b1 := p r
    let r' := if b1 then row else r
    let (rs', b2) := updateRows row p rs
    (r' :: rs', b1 || b2)

/-- `Table::update`: arity check, then the unconditional replacement loop
(no re-validation of constraints). -/
def Table.update (t : Table) (row : Row) (p : Row → Bool) : Bool × Table :=
  if row.length ≠ t.columns.length then (false, t)
  else
    let (rs', b) := updateRows row p t.rows
    (b, { t with rows := rs' })

/-- `Table::remove`: erase/remove_if of every matching row; returns whether
the row count decreased. -/
def Table.remove (t : Table) (p : Row → Bool) : Bool × Table :=
  let keep := t.rows.filter (fun r => !(p r))
  (decide (keep.length < t.rows.length), { t with rows := keep })

/-- `Table::select`: copy of every matching row, in storage order. -/
def Table.select (t : Table) (p : Row → Bool) : List Row :=
  t.rows.filter p

/-- `class Database`: the name-keyed table map (`std::unordered_map`),
modelled as an association list with unique keys; a fresh key is appended. -/
structure Database where
  tables : List (List Nat × Table)
deriving DecidableEq, Repr

def lookupTable : List (List Nat × Table) → List Nat → Option Table
  | [], _ => none
  | (n, t) :: rest, name => if name = n then some t else lookupTable rest name

/-- `Database::getTable`. -/
def Database.getTable (db : Database) (name : List Nat) : Option Table :=
  lookupTable db.tables name

/-- `tables_[name] = t`: overwrite in place when present, append when
absent. -/
def mapInsert : List (List Nat × Table) → List Nat → Table → List (List Nat × Table)
  | [], name, t => [(name, t)]
  | (n, t0) :: rest, name, t =>
    if name = n then (n, t) :: rest else (n, t0) :: mapInsert rest name t

def Database.setTable (db : Database) (name : List Nat) (t : Table) : Database :=
  ⟨mapInsert db.tables name t⟩

/-- `Database::getTableNames`. -/
def Database.getTableNames (db : Database) : List (List Nat) :=
  db.tables.map Prod.fst

/-- `Database::createTable`.  In `tables_[name] = std::make_unique<Table>(...)`
the right-hand side is evaluated first (C++17), so when the `Table`
constructor throws, the exception escapes `createTable` (modelled by the
`none` result) and the map is untouched. -/
def Database.createTable (db : Database) (name : List Nat) (cols : List Column) :
    Option Bool × Database :=
  if (db.getTable name).isSome then (some false, db)
  else
    match Table.mk? name cols with
    | none => (none, db)
    | some t => (some true, db.setTable name t)

/-- `Database::dropTable`. -/
def Database.dropTable (db : Database) (name : List Nat) : Bool × Database :=
  if (db.getTable name).isSome then
    (true, ⟨db.tables.filter (fun e => !(e.1 = name : Bool))⟩)
  else (false, db)

/-- One recorded compensating closure of `Transaction`:
insert's closure removes every row comparing equal to the inserted row,
update's closure re-updates by primary-key (or whole-row) match, and
remove's closure re-inserts the deleted rows through `Table::insert`. -/
inductive UndoOp
  | undoInsert (row : Row)
  | undoUpdate (original : Row)
  | undoRemove (deleted : List Row)
deriving DecidableEq, Repr

/-- Lexicographic `std::string::operator<` on raw bytes. -/
def bytesLt : List Nat → List Nat → Bool
  | [], [] => false
  | [], _ :: _ => true
  | _ :: _, [] => false
  | a :: as, b :: bs => if a < b then true else if b < a then false else bytesLt as bs

/-- `rollback_operations_[table_name].push_back(op)`: the log is a
`std::map` keyed by table name, so entries are kept sorted by name; the new
action is appended at the end of its table's list. -/
def logAdd : List (List Nat × List UndoOp) → List Nat → UndoOp →
    List (List Nat × List UndoOp)
  | [], name, op => [(name, [op])]
  | (n, ops) :: rest, name, op =>
    if name = n then (n, ops ++ [op]) :: rest
    else if bytesLt name n then (name, [op]) :: (n, ops) :: rest
    else (n, ops) :: logAdd rest name op

/-- `class Transaction`: the active flag and the per-table undo log
(the owning `Database*` is passed explicitly to each operation). -/
structure TxState where
  active : Bool
  log : List (List Nat × List UndoOp)
deriving DecidableEq, Repr

/-- `Database::beginTransaction`: fresh active transaction, empty log. -/
def beginTransaction : TxState := ⟨true, []⟩

/-- Execute one compensating closure against the table it captured. -/
def applyUndo (t : Table) : UndoOp → Table
  | .undoInsert row => (t.remove (fun r => rowBeq r row)).2
  | .undoUpdate original =>
    (t.update original (fun r =>
      match t.findPrimaryKeyIndex with
      | some i => Value.beq (r.getD i Value.nullV) (original.getD i Value.nullV)
      | none => rowBeq r original)).2
  | .undoRemove deleted => deleted.foldl (fun tb r => (tb.insert r).2) t

/-- The closures captured a `Table*`; in this sequential model the pointer is
resolved by name (no claim involves dropping a table mid-transaction). -/
def applyUndoAt (db : Database) (name : List Nat) (op : UndoOp) : Database :=
  match db.getTable name with
  | some t => db.setTable name (applyUndo t op)
  | none => db

/-- `Transaction::rollback`'s replay: tables in reverse map (name) order,
each table's actions in reverse recording order. -/
def applyLog (db : Database) (log : List (List Nat × List UndoOp)) : Database :=
  log.reverse.foldl (fun db entry =>
    entry.2.reverse.foldl (fun db op => applyUndoAt db entry.1 op) db) db

/-- `Transaction::commit`: fails when inactive; otherwise discards the undo
log without executing it and deactivates. -/
def Transaction.commit (st : TxState) : Bool × TxState :=
  if !st.active then (false, st) else (true, ⟨false, []⟩)

/-- `Transaction::rollback`: no-op when inactive; otherwise replays the undo
log in reverse and deactivates. -/
def Transaction.rollback (st : TxState) (db : Database) : TxState × Database :=
  if !st.active then (st, db) else (⟨false, []⟩, applyLog db st.log)

/-- `Transaction::insert`: inactive or unknown-table calls fail; otherwise
`beginWrite()` (unconditionally true in the committed code), the table-level
insert, and on success the compensating remove-equal-rows action. -/
def Transaction.insert (st : TxState) (db : Database) (name : List Nat) (row : Row) :
    Bool × TxState × Database :=
  if !st.active then (false, st, db)
  else
    match db.getTable name with
    | none => (false, st, db)
    | some t =>
      let (res, t') := t.insert row
      let st' :=
        if res then { st with log := logAdd st.log name (.undoInsert row) } else st
      (res, st', db.setTable name t')

/-- `Transaction::update`: snapshots the matching rows, performs the
table-level update, and on success records one restore action per
overwritten row, in snapshot order. -/
def Transaction.update (st : TxState) (db : Database) (name : List Nat) (row : Row)
    (p : Row → Bool) : Bool × TxState × Database :=
  if !st.active then (false, st, db)
  else
    match db.getTable name with
    | none => (false, st, db)
    | some t =>
      let original_rows := t.select p
      let (res, t') := t.update row p
      let st' :=
        if res && !original_rows.isEmpty then
          { st with
            log := original_rows.foldl (fun L orig => logAdd L name (.undoUpdate orig)) st.log }
        else st
      (res, st', db.setTable name t')

/-- `Transaction::remove`: snapshots the matching rows, performs the
table-level remove, and on success records one reinsert-all action. -/
def Transaction.remove (st : TxState) (db : Database) (name : List Nat)
    (p : Row → Bool) : Bool × TxState × Database :=
  if !st.active then (false, st, db)
  else
    match db.getTable name with
    | none => (false, st, db)
    | some t =>
      let deleted := t.select p
      let (res, t') := t.remove p
      let st' :=
        if res && !deleted.isEmpty then
          { st with log := logAdd st.log name (.undoRemove deleted) }
        else st
      (res, st', db.setTable name t')

/-- `Transaction::select`: inactive or unknown-table calls return the empty
result; otherwise forwards to the table's select. -/
def Transaction.select (st : TxState) (db : Database) (name : List Nat)
    (p : Row → Bool) : List Row :=
  if !st.active then []
  else
    match db.getTable name with
    | none => []
    | some t => t.select p

/-! ## Binary persistence (host x86-64: size_t 8 bytes, int 4, double 8,
enum 4, bool 1, little-endian) -/

/-- The `k` little-endian bytes of `n` (as `out.write` emits an integer). -/
def toBytesLE : Nat → Nat → List Nat
  | 0, _ => []
  | k + 1, n => n % 256 :: toBytesLE k (n / 256)

/-- Reassemble a little-endian byte list into the integer it encodes. -/
def fromBytesLE : List Nat → Nat
  | [] => 0
  | b :: bs => b + 256 * fromBytesLE bs

/-- An `std::istream` being consumed: remaining bytes plus the failbit.
Once failed, `read` does nothing, so a zero-initialised target keeps its
zeros; a partial read delivers the available bytes plus the zeros of the
untouched remainder of the zero-initialised target, and sets the failbit. -/
structure IStream where
  data : List Nat
  failed : Bool
deriving DecidableEq, Repr

/-- `in.read(buf, k)` for the zero-initialised buffers this code uses. -/
def readBytes (s : IStream) (k : Nat) : List Nat × IStream :=
  if s.failed then (List.replicate k 0, s)
  else if k ≤ s.data.length then (s.data.take k, ⟨s.data.drop k, false⟩)
  else (s.data ++ List.replicate (k - s.data.length) 0, ⟨[], true⟩)

/-- Read a `k`-byte little-endian unsigned integer. -/
def readNatLE (s : IStream) (k : Nat) : Nat × IStream :=
  let (bs, s') := readBytes s k
  (fromBytesLE bs, s')

/-- `Value::serialize`: 4-byte type tag (NULL=0, INT=1, FLOAT=2, TEXT=3,
BLOB=4) then the payload: INT 4 bytes two's complement, FLOAT the 8-byte
bit pattern, TEXT/BLOB an 8-byte length plus the raw bytes, NULL nothing. -/
def Value.serialize : Value → List Nat
  | .nullV => toBytesLE 4 0
  | .intV n => toBytesLE 4 1 ++ toBytesLE 4 (n % 4294967296).toNat
  | .floatV bits => toBytesLE 4 2 ++ toBytesLE 8 bits
  | .textV s => toBytesLE 4 3 ++ toBytesLE 8 s.length ++ s
  | .blobV b => toBytesLE 4 4 ++ toBytesLE 8 b.length ++ b

/-- Decode the 4 stored bytes of a C++ `int` back to its signed value. -/
def intOfBytes (m : Nat) : Int :=
  if m < 2 ^ 31 then (m : Int) else (m : Int) - 2 ^ 32

/-- `Value::deserialize`: reads the tag then the payload; a tag matching no
case leaves the default-constructed NULL value. -/
def Value.deserialize (s : IStream) : Value × IStream :=
  let (tag, s1) := readNatLE s 4
  if tag = 1 then
    let (m, s2) := readNatLE s1 4
    (.intV (intOfBytes m), s2)
  else if tag = 2 then
    let (bits, s2) := readNatLE s1 8
    (.floatV bits, s2)
  else if tag = 3 then
    let (len, s2) := readNatLE s1 8
    let (bs, s3) := readBytes s2 len
    (.textV bs, s3)
  else if tag = 4 then
    let (len, s2) := readNatLE s1 8
    let (bs, s3) := readBytes s2 len
    (.blobV bs, s3)
  else (.nullV, s1)

/-- The column record `Table::serialize` writes inline for one column:
name length, name bytes, 4-byte type enum, three 1-byte bools. -/
def serializeColumn (c : Column) : List Nat :=
  toBytesLE 8 c.name.length ++ c.name ++ toBytesLE 4 c.type.tag ++
    [if c.primary_key then 1 else 0, if c.not_null then 1 else 0,
     if c.unique then 1 else 0]

/-- Reading the raw 4 bytes back into the `Column::Type` enum (only tags
0..3 are ever written by the serializer). -/
def colTypeOfTag (tag : Nat) : ColType :=
  if tag = 0 then .int else if tag = 1 then .float
  else if tag = 2 then .text else .blob

/-- The column record `Table::deserialize` reads inline. -/
def deserializeColumn (s : IStream) : Column × IStream :=
  let (len, s1) := readNatLE s 8
  let (nm, s2) := readBytes s1 len
  let (tag, s3) := readNatLE s2 4
  let (pk, s4) := readBytes s3 1
  let (nn, s5) := readBytes s4 1
  let (uq, s6) := readBytes s5 1
  (⟨nm, colTypeOfTag tag, pk.getD 0 0 != 0, nn.getD 0 0 != 0, uq.getD 0 0 != 0⟩, s6)

def serializeColumns : List Column → List Nat
  | [] => []
  | c :: cs => serializeColumn c ++ serializeColumns cs

def deserializeColumns : Nat → IStream → List Column × IStream
  | 0, s => ([], s)
  | k + 1, s =>
    let (c, s1) := deserializeColumn s
    let (cs, s2) := deserializeColumns k s1
    (c :: cs, s2)

def serializeValues : List Value → List Nat
  | [] => []
  | v :: vs => v.serialize ++ serializeValues vs

def deserializeValues : Nat → IStream → List Value × IStream
  | 0, s => ([], s)
  | k + 1, s =>
    let (v, s1) := Value.deserialize s
    let (vs, s2) := deserializeValues k s1
    (v :: vs, s2)

/-- The row record of `Table::serialize`: value count then each value. -/
def serializeRow (row : Row) : List Nat :=
  toBytesLE 8 row.length ++ serializeValues row

def serializeRows : List Row → List Nat
  | [] => []
  | r :: rs => serializeRow r ++ serializeRows rs

def deserializeRows : Nat → IStream → List Row × IStream
  | 0, s => ([], s)
  | k + 1, s =>
    let (cnt, s1) := readNatLE s 8
    let (vs, s2) := deserializeValues cnt s1
    let (rs, s3) := deserializeRows k s2
    (vs :: rs, s3)

/-- `Table::serialize`: name record, column count and records, row count and
records. -/
def Table.serialize (t : Table) : List Nat :=
  toBytesLE 8 t.name.length ++ t.name ++
    toBytesLE 8 t.columns.length ++ serializeColumns t.columns ++
    toBytesLE 8 t.rows.length ++ serializeRows t.rows

/-- `Table::deserialize`: reads name and columns, reconstructs the table via
the normal constructor (`none` models its thrown error on more than one
primary key, which escapes the caller), then appends the rows directly,
bypassing insert-time constraint checks. -/
def Table.deserialize (s : IStream) : Option (Table × IStream) :=
  let (nlen, s1) := readNatLE s 8
  let (nm, s2) := readBytes s1 nlen
  let (ccount, s3) := readNatLE s2 8
  let (cols, s4) := deserializeColumns ccount s3
  match Table.mk? nm cols with
  | none => none
  | some t =>
    let (rcount, s5) := readNatLE s4 8
    let (rs, s6) := deserializeRows rcount s5
    some ({ t with rows := rs }, s6)

def serializeTables : List (List Nat × Table) → List Nat
  | [] => []
  | (_, t) :: rest => t.serialize ++ serializeTables rest

/-- The byte stream `Database::saveToFile` writes: table count, then each
table in map iteration order. -/
def Database.saveBytes (db : Database) : List Nat :=
  toBytesLE 8 db.tables.length ++ serializeTables db.tables

def loadTables : Nat → List (List Nat × Table) → IStream →
    Option (List (List Nat × Table) × IStream)
  | 0, acc, s => some (acc, s)
  | k + 1, acc, s =>
    match Table.deserialize s with
    | none => none
    | some (t, s1) => loadTables k (mapInsert acc t.name t) s1

/-- `Database::loadFromFile` on an opened file: `tables_.clear()` discards
the previous table set unconditionally (the `db` argument is never consulted),
then the table count and that many tables are read and registered one by one
under `table->getName()`; the returned flag is `file.good()`, i.e. whether no
read failed.  The outer `none` models the table-constructor exception
escaping the function. -/
def Database.loadFromFile (_db : Database) (bytes : List Nat) :
    Option (Bool × Database) :=
  let s0 : IStream := ⟨bytes, false⟩
  let (cnt, s1) := readNatLE s0 8
  match loadTables cnt [] s1 with
  | none => none
  | some (acc, s2) => some (!s2.failed, ⟨acc⟩)

/-! ## Wellformedness of in-memory stores (byte ranges and count bounds the
binary format can represent faithfully) -/

/-- Every entry of every unordered pair (in list order) satisfies `f`. -/
def allPairsB (f : α → α → Bool) : List α → Bool
  | [] => true
  | x :: xs => xs.all (f x) && allPairsB f xs

def wfBytes (bs : List Nat) : Bool := bs.all (· < 256)

def wfValue : Value → Bool
  | .nullV => true
  | .intV n => decide (-(2 ^ 31) ≤ n ∧ n < 2 ^ 31)
  | .floatV bits => decide (bits < 2 ^ 64)
  | .textV s => decide (s.length < 2 ^ 64) && wfBytes s
  | .blobV b => decide (b.length < 2 ^ 64) && wfBytes b

def wfColumn (c : Column) : Bool :=
  decide (c.name.length < 2 ^ 64) && wfBytes c.name

def wfRow (r : Row) : Bool :=
  decide (r.length < 2 ^ 64) && r.all wfValue

def Table.wf (t : Table) : Bool :=
  decide (t.name.length < 2 ^ 64) && wfBytes t.name &&
    decide (t.columns.length < 2 ^ 64) && t.columns.all wfColumn &&
    decide (t.columns.countP (fun c => c.primary_key) ≤ 1) &&
    decide (t.rows.length < 2 ^ 64) && t.rows.all wfRow

/-- A database whose save file round-trips: bounded counts, wellformed
tables, each registered under its own name, names pairwise distinct. -/
def Database.wf (db : Database) : Bool :=
  decide (db.tables.length < 2 ^ 64) &&
    db.tables.all (fun e => decide (e.1 = e.2.name) && e.2.wf) &&
    allPairsB (fun a b => !(decide (a.1 = b.1))) db.tables

/-! ## Claim-side notions -/

/-- The uniqueness invariant of the spec: when the table has a primary-key
column, no two rows' values there compare equal (`Value::operator==`). -/
def pkDistinctB (t : Table) : Bool :=
  match t.findPrimaryKeyIndex with
  | none => true
  | some i =>
    allPairsB (fun r s =>
      !(Value.beq (r.getD i Value.nullV) (s.getD i Value.nullV))) t.rows

/-- A direct (non-transactional) table mutation, for stating invariant
preservation over operation sequences. -/
inductive TableOp
  | ins (row : Row)
  | rem (p : Row → Bool)

def applyTableOp (t : Table) : TableOp → Table
  | .ins row => (t.insert row).2
  | .rem p => (t.remove p).2

/-- The constraint clash `Table::insert` tests between one existing row and
the candidate row: equal primary-key values, or equal values in some
unique-flagged column. -/
def rowClash (cols : List Column) (er row : Row) : Bool :=
  (match cols.findIdx? (fun c => c.primary_key) with
   | some i => Value.beq (er.getD i Value.nullV) (row.getD i Value.nullV)
   | none => false) ||
  (List.range cols.length).any (fun i =>
    (cols.getD i defaultColumn).unique &&
      Value.beq (er.getD i Value.nullV) (row.getD i Value.nullV))

/-- Run a sequence of `Transaction::insert` calls against one table,
recording whether every call returned true. -/
def txInsertMany (name : List Nat) : TxState × Database → List Row →
    Bool × TxState × Database
  | (st, db), [] => (true, st, db)
  | (st, db), r :: rs =>
    let (b, st', db') := Transaction.insert st db name r
    let (ball, st2, db2) := txInsertMany name (st', db') rs
    (b && ball, st2, db2)

/-! ## Concrete fixtures for witnesses and counterexamples -/

/-- Unconstrained single INT column named "a". -/
def colPlain : Column := ⟨[97], .int, false, false, false⟩

/-- Primary-key INT column named "id". -/
def colId : Column := ⟨[105, 100], .int, true, true, true⟩

/-- NOT NULL TEXT column named "n". -/
def colName : Column := ⟨[110], .text, false, true, false⟩

/-- Table "t" with one unconstrained column, holding the single row [1]. -/
def tDup : Table := ⟨[116], [colPlain], [[Value.intV 1]]⟩

def dbDup : Database := ⟨[([116], tDup)]⟩

/-- Table "u" with a single primary-key column and rows [1], [2]. -/
def tPk : Table := ⟨[117], [colId], [[Value.intV 1], [Value.intV 2]]⟩

def dbPk : Database := ⟨[([117], tPk)]⟩

/-- Two-column table used by the round-trip and transaction witnesses. -/
def tUsers : Table :=
  ⟨[116], [colId, colName],
   [[Value.intV 1, Value.textV [65]], [Value.intV 2, Value.textV [66]],
    [Value.intV 3, Value.textV [67]]]⟩

def dbUsers : Database := ⟨[([116], tUsers)]⟩

/-- A schema with two primary-key columns. -/
def colsTwoPk : List Column :=
  [⟨[97], .int, true, false, false⟩, ⟨[98], .int, true, false, false⟩]

/-! # Theorems -/

theorem updateRows_eq (row : Row) (p : Row → Bool) (l : List Row) :
    updateRows row p l = (l.map (fun r => if p r then row else r), l.any p) := by
  induction l with
  | nil => rfl
  | cons r rs ih => simp [updateRows, ih]

theorem pkConflict_false_iff (t : Table) (row : Row) :
    pkConflict t row = false ↔
      ∀ i, t.findPrimaryKeyIndex = some i →
        ∀ er ∈ t.rows,
          Value.beq (er.getD i Value.nullV) (row.getD i Value.nullV) = false := by
  unfold pkConflict
  cases h : t.findPrimaryKeyIndex with
  | none => simp [h]
  | some i => simp [h, List.any_eq_false]

theorem uniqueConflict_false_iff (t : Table) (row : Row) :
    uniqueConflict t row = false ↔
      ∀ i, i < t.columns.length → (t.columns.getD i defaultColumn).unique = true →
        ∀ er ∈ t.rows,
          Value.beq (er.getD i Value.nullV) (row.getD i Value.nullV) = false := by
  unfold uniqueConflict
  rw [List.any_eq_false]
  constructor
  · intro h i hi hu er her
    have hh := h i (List.mem_range.mpr hi)
    rw [hu, Bool.true_and] at hh
    have hh2 : (t.rows.any fun er =>
        Value.beq (er.getD i Value.nullV) (row.getD i Value.nullV)) = false :=
      Bool.eq_false_iff.mpr hh
    have hh3 := List.any_eq_false.mp hh2 er her
    exact Bool.eq_false_iff.mpr hh3
  · intro h i hi hcontra
    rw [Bool.and_eq_true] at hcontra
    obtain ⟨hu, hany⟩ := hcontra
    obtain ⟨er, her, hbeq⟩ := List.any_eq_true.mp hany
    rw [h i (List.mem_range.mp hi) hu er her] at hbeq
    exact absurd hbeq (by simp)

theorem insert_cases (t : Table) (row : Row) :
    t.insert row = (true, { t with rows := t.rows ++ [row] }) ∨
      t.insert row = (false, t) := by
  unfold Table.insert
  by_cases h1 : row.length ≠ t.columns.length
  · right; simp [h1]
  · by_cases h2 : pkConflict t row
    · right; simp [h1, h2]
    · by_cases h3 : uniqueConflict t row
      · right; simp [h1, h2, h3]
      · left; simp [h1, h2, h3]

theorem insert_true_iff (t : Table) (row : Row) :
    (t.insert row).1 = true ↔
      row.length = t.columns.length ∧ pkConflict t row = false ∧
        uniqueConflict t row = false := by
  unfold Table.insert
  by_cases h1 : row.length = t.columns.length <;>
    by_cases h2 : pkConflict t row <;>
    by_cases h3 : uniqueConflict t row <;>
    simp [h1, h2, h3]

theorem insert_true_eq (t : Table) (row : Row) (h : (t.insert row).1 = true) :
    (t.insert row).2 = { t with rows := t.rows ++ [row] } := by
  rcases insert_cases t row with hh | hh
  · rw [hh]
  · rw [hh] at h; exact absurd h (by simp)

theorem insert_false_eq (t : Table) (row : Row) (h : (t.insert row).1 = false) :
    (t.insert row).2 = t := by
  rcases insert_cases t row with hh | hh
  · rw [hh] at h; exact absurd h (by simp)
  · rw [hh]

/-- Claim C5 (confirmed): `Table::update` fails immediately, mutating
nothing, when the row's arity mismatches the schema; otherwise it replaces
wholesale by `row` every stored row satisfying the predicate — with no
re-validation of the replacement's uniqueness against the non-matching
rows, the replacement being entirely unconditional — and returns true iff
at least one row matched. -/
theorem update_spec (t : Table) (row : Row) (p : Row → Bool) :
    (row.length ≠ t.columns.length → t.update row p = (false, t)) ∧
    (row.length = t.columns.length →
      (t.update row p).2 =
        { t with rows := t.rows.map (fun r => if p r then row else r) } ∧
      ((t.update row p).1 = true ↔ ∃ r ∈ t.rows, p r = true)) := by
  constructor
  · intro h
    simp [Table.update, h]
  · intro h
    simp [Table.update, h, updateRows_eq, List.any_eq_true]

/-- Witness for C5: at a concrete table, a mismatched-arity update fails
without mutation, and a matched update replaces exactly the matching row. -/
theorem update_spec_witness :
    Table.update tUsers [Value.intV 9] (fun _ => true) = (false, tUsers) ∧
    ((Table.update tUsers [Value.intV 9, Value.textV [90]]
        (fun r => Value.beq (r.getD 0 Value.nullV) (Value.intV 2))).2 =
      { tUsers with rows := tUsers.rows.map (fun r =>
          if Value.beq (r.getD 0 Value.nullV) (Value.intV 2) then
            [Value.intV 9, Value.textV [90]] else r) } ∧
      ((Table.update tUsers [Value.intV 9, Value.textV [90]]
          (fun r => Value.beq (r.getD 0 Value.nullV) (Value.intV 2))).1 = true ↔
        ∃ r ∈ tUsers.rows, Value.beq (r.getD 0 Value.nullV) (Value.intV 2) = true)) :=
  ⟨(update_spec tUsers [Value.intV 9] (fun _ => true)).1 (by decide),
   (update_spec tUsers [Value.intV 9, Value.textV [90]]
      (fun r => Value.beq (r.getD 0 Value.nullV) (Value.intV 2))).2 (by decide)⟩

/-- Claim C6 (confirmed): `Table::insert` returns false and leaves the
table unchanged when the arity mismatches, when the row's primary-key value
compares equal to an existing row's, or when its value in any
unique-flagged column compares equal to an existing row's; otherwise it
appends the row at the end and returns true. -/
theorem insert_spec (t : Table) (row : Row) :
    ((t.insert row).1 = true ↔
      row.length = t.columns.length ∧
      (∀ i, t.findPrimaryKeyIndex = some i →
        ∀ er ∈ t.rows,
          Value.beq (er.getD i Value.nullV) (row.getD i Value.nullV) = false) ∧
      (∀ i, i < t.columns.length → (t.columns.getD i defaultColumn).unique = true →
        ∀ er ∈ t.rows,
          Value.beq (er.getD i Value.nullV) (row.getD i Value.nullV) = false)) ∧
    ((t.insert row).1 = true → (t.insert row).2 = { t with rows := t.rows ++ [row] }) ∧
    ((t.insert row).1 = false → (t.insert row).2 = t) := by
  refine ⟨?_, fun h => insert_true_eq t row h, fun h => insert_false_eq t row h⟩
  rw [insert_true_iff, pkConflict_false_iff, uniqueConflict_false_iff]

/-- Witness for C6: a duplicate-primary-key insert on a concrete table is
rejected without mutation; a fresh insert appends at the end. -/
theorem insert_spec_witness :
    (Table.insert tPk [Value.intV 1]).1 = false ∧
    (Table.insert tPk [Value.intV 1]).2 = tPk ∧
    (Table.insert tPk [Value.intV 3]).1 = true ∧
    (Table.insert tPk [Value.intV 3]).2 =
      { tPk with rows := tPk.rows ++ [[Value.intV 3]] } :=
  ⟨by decide, (insert_spec tPk [Value.intV 1]).2.2 (by decide), by decide,
   (insert_spec tPk [Value.intV 3]).2.1 (by decide)⟩

/-- Claim C7 (confirmed): commit and rollback both leave the transaction
inactive, and on an inactive transaction every insert/update/remove/select
fails cleanly (false or empty result) without touching the transaction
state or any table, a second commit fails, and a rollback is a strict
no-op. -/
theorem terminal_transaction_spec (st st2 : TxState) (db : Database)
    (name : List Nat) (row : Row) (p : Row → Bool) (h : st.active = false) :
    (Transaction.commit st2).2.active = false ∧
    (Transaction.rollback st2 db).1.active = false ∧
    Transaction.insert st db name row = (false, st, db) ∧
    Transaction.update st db name row p = (false, st, db) ∧
    Transaction.remove st db name p = (false, st, db) ∧
    Transaction.select st db name p = [] ∧
    Transaction.commit st = (false, st) ∧
    Transaction.rollback st db = (st, db) := by
  refine ⟨?_, ?_, ?_, ?_, ?_, ?_, ?_, ?_⟩
  · unfold Transaction.commit; cases h2 : st2.active <;> simp [h2]
  · unfold Transaction.rollback; cases h2 : st2.active <;> simp [h2]
  all_goals
    simp [Transaction.insert, Transaction.update, Transaction.remove,
      Transaction.select, Transaction.commit, Transaction.rollback, h]

/-- Witness for C7: the state left by a committed fresh transaction refuses
every further operation without touching a concrete database. -/
theorem terminal_transaction_spec_witness :
    (Transaction.commit ⟨true, []⟩).2.active = false ∧
    (Transaction.rollback ⟨true, []⟩ dbUsers).1.active = false ∧
    Transaction.insert ⟨false, []⟩ dbUsers [116] [Value.intV 9, Value.textV [90]] =
      (false, ⟨false, []⟩, dbUsers) ∧
    Transaction.update ⟨false, []⟩ dbUsers [116] [Value.intV 9, Value.textV [90]]
      (fun _ => true) = (false, ⟨false, []⟩, dbUsers) ∧
    Transaction.remove ⟨false, []⟩ dbUsers [116] (fun _ => true) =
      (false, ⟨false, []⟩, dbUsers) ∧
    Transaction.select ⟨false, []⟩ dbUsers [116] (fun _ => true) = [] ∧
    Transaction.commit ⟨false, []⟩ = (false, ⟨false, []⟩) ∧
    Transaction.rollback ⟨false, []⟩ dbUsers = (⟨false, []⟩, dbUsers) :=
  terminal_transaction_spec ⟨false, []⟩ ⟨true, []⟩ dbUsers [116]
    [Value.intV 9, Value.textV [90]] (fun _ => true) rfl

/-- Claim C10 (corrected): with a schema holding two or more primary-key
columns, `Database::createTable` lets the table-constructor error escape
(`none`), leaving the table map untouched — but only when no table of that
name exists; when the name is already taken the existing-name check fires
first and the call returns plain `false` without ever constructing the
table. -/
theorem createTable_two_pk (db : Database) (name : List Nat) (cols : List Column)
    (hpk : 2 ≤ cols.countP (fun c => c.primary_key)) :
    (db.getTable name = none → db.createTable name cols = (none, db)) ∧
    ((db.getTable name).isSome = true → db.createTable name cols = (some false, db)) := by
  constructor
  · intro h
    unfold Database.createTable Table.mk?
    simp [h, show cols.countP (fun c => c.primary_key) > 1 by omega]
  · intro h
    unfold Database.createTable
    simp [h]

/-- Counterexample for C10 as stated: a two-primary-key schema submitted
under an already-registered name makes `createTable` return boolean false
(no error is raised). -/
theorem createTable_existing_name_two_pk_returns_false :
    2 ≤ colsTwoPk.countP (fun c => c.primary_key) ∧
    Database.createTable dbUsers [116] colsTwoPk = (some false, dbUsers) := by
  decide

/-- Witness for C10's amended theorem: under a fresh name the construction
error escapes and the map is unchanged. -/
theorem createTable_two_pk_witness :
    Database.createTable dbUsers [120] colsTwoPk = (none, dbUsers) :=
  (createTable_two_pk dbUsers [120] colsTwoPk (by decide)).1 (by decide)

/-- Counterexample for C4 as stated: loading a file that announces one
table and then ends leaves the database holding a partially-loaded table
set (one garbage empty-named table), the pre-load tables gone, even though
the call reports failure. -/
theorem load_failure_leaves_partial_tables :
    dbUsers.loadFromFile [1, 0, 0, 0, 0, 0, 0, 0] =
      some (false, ⟨[([], ⟨[], [], []⟩)]⟩) ∧
    Database.getTableNames ⟨[([], ⟨[], [], []⟩)]⟩ = [[]] ∧
    dbUsers.getTableNames = [[116]] := by
  decide

/-- Claim C4 (corrected): `loadFromFile` clears the previous table set
before reading, so its outcome never depends on the prior state, and a
structural read failure (here a file truncated right after the header)
returns false while leaving the partially-parsed table set registered. -/
theorem load_discards_previous_tables (db1 db2 : Database) (bytes : List Nat) :
    db1.loadFromFile bytes = db2.loadFromFile bytes ∧
    db1.loadFromFile [1, 0, 0, 0, 0, 0, 0, 0] =
      some (false, ⟨[([], ⟨[], [], []⟩)]⟩) :=
  ⟨rfl, rfl⟩

/-- Counterexample for C1 as stated: inserting, inside a transaction, a row
equal to one already present (no constraints on the table, so the insert
succeeds) and rolling back removes both copies: the table does not return
to its pre-transaction state. -/
theorem rollback_insert_duplicate_not_restored :
    (Transaction.insert beginTransaction dbDup [116] [Value.intV 1]).1 = true ∧
    (Transaction.rollback
        (Transaction.insert beginTransaction dbDup [116] [Value.intV 1]).2.1
        (Transaction.insert beginTransaction dbDup [116] [Value.intV 1]).2.2).2 ≠
      dbDup ∧
    ((Transaction.rollback
        (Transaction.insert beginTransaction dbDup [116] [Value.intV 1]).2.1
        (Transaction.insert beginTransaction dbDup [116] [Value.intV 1]).2.2).2.getTable
      [116]).map Table.rows = some [] ∧
    (dbDup.getTable [116]).map Table.rows = some [[Value.intV 1]] := by
  decide

theorem allPairsB_append_singleton (f : α → α → Bool) (l : List α) (x : α) :
    allPairsB f (l ++ [x]) = (allPairsB f l && l.all (fun y => f y x)) := by
  induction l with
  | nil => simp [allPairsB]
  | cons a l ih =>
    simp [allPairsB, ih, List.all_append, Bool.and_assoc, Bool.and_comm,
      Bool.and_left_comm]

theorem allPairsB_filter (f : α → α → Bool) (q : α → Bool) (l : List α)
    (h : allPairsB f l = true) : allPairsB f (l.filter q) = true := by
  induction l with
  | nil => simpa using h
  | cons a l ih =>
    simp only [allPairsB, Bool.and_eq_true] at h
    obtain ⟨ha, hl⟩ := h
    rw [List.filter_cons]
    split
    · simp only [allPairsB, Bool.and_eq_true]
      refine ⟨?_, ih hl⟩
      rw [List.all_eq_true]
      intro x hx
      exact List.all_eq_true.mp ha x (List.mem_of_mem_filter hx)
    · exact ih hl

theorem findPk_set_rows (t : Table) (rs : List Row) :
    Table.findPrimaryKeyIndex { t with rows := rs } = t.findPrimaryKeyIndex := rfl

theorem pkDistinctB_none (t : Table) (h : t.findPrimaryKeyIndex = none) :
    pkDistinctB t = true := by
  unfold pkDistinctB
  rw [h]

theorem pkDistinctB_some (t : Table) (i : Nat) (h : t.findPrimaryKeyIndex = some i) :
    pkDistinctB t = allPairsB (fun r s =>
      !(Value.beq (r.getD i Value.nullV) (s.getD i Value.nullV))) t.rows := by
  unfold pkDistinctB
  rw [h]

theorem pkConflict_some (t : Table) (i : Nat) (h : t.findPrimaryKeyIndex = some i)
    (row : Row) :
    pkConflict t row = t.rows.any (fun er =>
      Value.beq (er.getD i Value.nullV) (row.getD i Value.nullV)) := by
  unfold pkConflict
  rw [h]

theorem pkDistinctB_insert (t : Table) (row : Row) (h : pkDistinctB t = true) :
    pkDistinctB (t.insert row).2 = true := by
  rcases insert_cases t row with hh | hh
  · have hok : (t.insert row).1 = true := by rw [hh]
    have hpk : pkConflict t row = false := ((insert_true_iff t row).mp hok).2.1
    rw [hh]
    show pkDistinctB { t with rows := t.rows ++ [row] } = true
    cases hidx : t.findPrimaryKeyIndex with
    | none => exact pkDistinctB_none _ ((findPk_set_rows t _).trans hidx)
    | some i =>
      rw [pkDistinctB_some _ i ((findPk_set_rows t _).trans hidx)]
      show allPairsB (fun r s =>
        !(Value.beq (r.getD i Value.nullV) (s.getD i Value.nullV)))
        (t.rows ++ [row]) = true
      rw [allPairsB_append_singleton, Bool.and_eq_true]
      constructor
      · rw [pkDistinctB_some t i hidx] at h; exact h
      · rw [pkConflict_some t i hidx row] at hpk
        rw [List.all_eq_true]
        intro y hy
        simp only [Bool.not_eq_true']
        exact Bool.eq_false_iff.mpr (List.any_eq_false.mp hpk y hy)
  · rw [hh]; exact h

theorem pkDistinctB_remove (t : Table) (p : Row → Bool) (h : pkDistinctB t = true) :
    pkDistinctB (t.remove p).2 = true := by
  show pkDistinctB { t with rows := t.rows.filter (fun r => !(p r)) } = true
  cases hidx : t.findPrimaryKeyIndex with
  | none => exact pkDistinctB_none _ ((findPk_set_rows t _).trans hidx)
  | some i =>
    rw [pkDistinctB_some _ i ((findPk_set_rows t _).trans hidx)]
    show allPairsB (fun r s =>
      !(Value.beq (r.getD i Value.nullV) (s.getD i Value.nullV)))
      (t.rows.filter (fun r => !(p r))) = true
    rw [pkDistinctB_some t i hidx] at h
    exact allPairsB_filter _ _ _ h

/-- Claim C2 (corrected): the primary-key uniqueness invariant is preserved
by every sequence of `Table::insert` and `Table::remove` operations; it is
not preserved by `Table::update`, which re-validates nothing (see the
counterexample). -/
theorem insert_remove_preserve_pk_uniqueness (t : Table) (ops : List TableOp)
    (h : pkDistinctB t = true) :
    pkDistinctB (ops.foldl applyTableOp t) = true := by
  induction ops generalizing t with
  | nil => exact h
  | cons op ops ih =>
    cases op with
    | ins row => exact ih _ (pkDistinctB_insert t row h)
    | rem p => exact ih _ (pkDistinctB_remove t p h)

/-- Witness for C2's amended theorem at a concrete table and operation
sequence. -/
theorem insert_remove_preserve_pk_uniqueness_witness :
    pkDistinctB tPk = true ∧
    pkDistinctB ([TableOp.ins [Value.intV 3], TableOp.ins [Value.intV 1],
      TableOp.rem (fun r => Value.beq (r.getD 0 Value.nullV) (Value.intV 2))].foldl
        applyTableOp tPk) = true :=
  ⟨by decide, insert_remove_preserve_pk_uniqueness tPk _ (by decide)⟩

theorem lookupTable_mapInsert_self (l : List (List Nat × Table)) (name : List Nat)
    (t : Table) : lookupTable (mapInsert l name t) name = some t := by
  induction l with
  | nil => simp [mapInsert, lookupTable]
  | cons e rest ih =>
    obtain ⟨n, t0⟩ := e
    by_cases h : name = n
    · simp [mapInsert, lookupTable, h]
    · simp [mapInsert, lookupTable, h, ih]

theorem mapInsert_self (l : List (List Nat × Table)) (name : List Nat) (t : Table)
    (h : lookupTable l name = some t) : mapInsert l name t = l := by
  induction l with
  | nil => simp [lookupTable] at h
  | cons e rest ih =>
    obtain ⟨n, t0⟩ := e
    by_cases hn : name = n
    · simp [lookupTable, hn] at h
      simp [mapInsert, hn, h]
    · simp [lookupTable, hn] at h
      simp [mapInsert, hn, ih h]

theorem mapInsert_mapInsert (l : List (List Nat × Table)) (name : List Nat)
    (t1 t2 : Table) : mapInsert (mapInsert l name t1) name t2 = mapInsert l name t2 := by
  induction l with
  | nil => simp [mapInsert]
  | cons e rest ih =>
    obtain ⟨n, t0⟩ := e
    by_cases h : name = n
    · simp [mapInsert, h]
    · simp [mapInsert, h, ih]

theorem getTable_setTable (db : Database) (name : List Nat) (t : Table) :
    (db.setTable name t).getTable name = some t :=
  lookupTable_mapInsert_self db.tables name t

theorem setTable_self (db : Database) (name : List Nat) (t : Table)
    (h : db.getTable name = some t) : db.setTable name t = db := by
  unfold Database.setTable
  rw [mapInsert_self db.tables name t h]

theorem setTable_setTable (db : Database) (name : List Nat) (t1 t2 : Table) :
    (db.setTable name t1).setTable name t2 = db.setTable name t2 := by
  unfold Database.setTable
  simp [mapInsert_mapInsert]

theorem logAdd_single (name : List Nat) (ops : List UndoOp) (op : UndoOp) :
    logAdd [(name, ops)] name op = [(name, ops ++ [op])] := by
  simp [logAdd]

theorem tx_insert_eq (st : TxState) (db : Database) (name : List Nat) (row : Row)
    (t : Table) (hact : st.active = true) (hget : db.getTable name = some t) :
    Transaction.insert st db name row =
      ((t.insert row).1,
       if (t.insert row).1 then
         { st with log := logAdd st.log name (.undoInsert row) }
       else st,
       db.setTable name (t.insert row).2) := by
  unfold Transaction.insert
  rw [hact, hget]
  rcases insert_cases t row with hh | hh <;> rw [hh] <;> simp [hh]

theorem txInsertMany_run (name : List Nat) (rs : List Row) :
    ∀ (db : Database) (t : Table) (ops : List UndoOp),
      db.getTable name = some t →
      (txInsertMany name (⟨true, [(name, ops)]⟩, db) rs).1 = true →
      (txInsertMany name (⟨true, [(name, ops)]⟩, db) rs).2 =
        (⟨true, [(name, ops ++ rs.map UndoOp.undoInsert)]⟩,
         db.setTable name { t with rows := t.rows ++ rs }) := by
  induction rs with
  | nil =>
    intro db t ops hget _
    simp only [txInsertMany, List.map_nil, List.append_nil]
    rw [setTable_self db name t hget]
  | cons r rest ih =>
    intro db t ops hget hok
    have hstep := tx_insert_eq ⟨true, [(name, ops)]⟩ db name r t rfl hget
    simp only [txInsertMany] at hok ⊢
    rw [hstep] at hok ⊢
    rcases insert_cases t r with hins | hins
    · have hb : (t.insert r).1 = true := by rw [hins]
      have ht' : (t.insert r).2 = { t with rows := t.rows ++ [r] } := by rw [hins]
      rw [hb, ht', if_pos rfl, logAdd_single] at hok ⊢
      simp only [] at hok ⊢
      rw [Bool.true_and] at hok
      have hrec := ih (db.setTable name { t with rows := t.rows ++ [r] })
        { t with rows := t.rows ++ [r] } (ops ++ [UndoOp.undoInsert r])
        (getTable_setTable db name _) hok
      exact Prod.mk.eta.trans (hrec.trans (by
        rw [setTable_setTable]
        simp [List.append_assoc]))
    · have hb : (t.insert r).1 = false := by rw [hins]
      rw [hb] at hok
      simp at hok

theorem applyLog_single (db : Database) (name : List Nat) (L : List UndoOp) :
    applyLog db [(name, L)] =
      L.reverse.foldl (fun d op => applyUndoAt d name op) db := by
  simp [applyLog]

theorem foldl_applyUndoAt (name : List Nat) (L : List UndoOp) :
    ∀ (db : Database) (t : Table), db.getTable name = some t →
      L.foldl (fun d op => applyUndoAt d name op) db =
        db.setTable name (L.foldl applyUndo t) := by
  induction L with
  | nil =>
    intro db t hget
    simp only [List.foldl_nil]
    rw [setTable_self db name t hget]
  | cons op L ih =>
    intro db t hget
    simp only [List.foldl_cons]
    have h1 : applyUndoAt db name op = db.setTable name (applyUndo t op) := by
      unfold applyUndoAt
      rw [hget]
    rw [h1, ih _ _ (getTable_setTable db name (applyUndo t op)), setTable_setTable]

theorem applyUndo_undoInsert (t : Table) (r : Row) :
    applyUndo t (.undoInsert r) =
      { t with rows := t.rows.filter (fun x => !(rowBeq x r)) } := rfl

theorem foldl_applyUndo_undoInsert (L : List Row) :
    ∀ t : Table, (L.map UndoOp.undoInsert).foldl applyUndo t =
      { t with rows := t.rows.filter (fun x => L.all (fun r => !(rowBeq x r))) } := by
  induction L with
  | nil =>
    intro t
    simp
  | cons r L ih =>
    intro t
    simp only [List.map_cons, List.foldl_cons]
    rw [applyUndo_undoInsert, ih]
    congr 1
    rw [List.filter_filter]
    apply List.filter_congr
    intro x _
    simp [Bool.and_comm]

/-- Claim C1 (corrected): a sequence of successful transactional inserts
whose rows compare equal to themselves and to no pre-existing row, followed
by rollback, returns the table — indeed the whole database — exactly to its
starting state.  The unrestricted claim is false: insert's compensation
removes every row comparing equal to the inserted one, so a pre-existing
equal row is removed along with it (see the counterexample). -/
theorem rollback_after_fresh_inserts_restores
    (db : Database) (name : List Nat) (t : Table) (rs : List Row)
    (hget : db.getTable name = some t)
    (hself : ∀ r ∈ rs, rowBeq r r = true)
    (hfresh : ∀ s ∈ t.rows, ∀ r ∈ rs, rowBeq s r = false)
    (hok : (txInsertMany name (beginTransaction, db) rs).1 = true) :
    (Transaction.rollback (txInsertMany name (beginTransaction, db) rs).2.1
        (txInsertMany name (beginTransaction, db) rs).2.2).2 = db := by
  cases rs with
  | nil =>
    simp [txInsertMany, Transaction.rollback, beginTransaction, applyLog]
  | cons r rest =>
    have hstep := tx_insert_eq ⟨true, []⟩ db name r t rfl hget
    rw [show beginTransaction = (⟨true, []⟩ : TxState) from rfl] at hok ⊢
    simp only [txInsertMany] at hok ⊢
    rw [hstep] at hok ⊢
    rcases insert_cases t r with hins | hins
    case inr =>
      have hb : (t.insert r).1 = false := by rw [hins]
      rw [hb] at hok
      simp at hok
    case inl =>
      have hb : (t.insert r).1 = true := by rw [hins]
      have ht' : (t.insert r).2 = { t with rows := t.rows ++ [r] } := by rw [hins]
      rw [hb, ht', if_pos rfl] at hok ⊢
      rw [show logAdd [] name (.undoInsert r) = [(name, [UndoOp.undoInsert r])] from rfl]
        at hok ⊢
      simp only [] at hok ⊢
      rw [Bool.true_and] at hok
      have hrun := txInsertMany_run name rest
        (db.setTable name { t with rows := t.rows ++ [r] })
        { t with rows := t.rows ++ [r] } [UndoOp.undoInsert r]
        (getTable_setTable db name _) hok
      show (Transaction.rollback
          (txInsertMany name
            ((⟨true, [(name, [UndoOp.undoInsert r])]⟩ : TxState),
              db.setTable name { t with rows := t.rows ++ [r] }) rest).2.1
          (txInsertMany name
            ((⟨true, [(name, [UndoOp.undoInsert r])]⟩ : TxState),
              db.setTable name { t with rows := t.rows ++ [r] }) rest).2.2).2 = db
      rw [hrun]
      simp only []
      rw [setTable_setTable]
      show (Transaction.rollback
          ⟨true, [(name, [UndoOp.undoInsert r] ++ rest.map UndoOp.undoInsert)]⟩
          (db.setTable name { t with rows := (t.rows ++ [r]) ++ rest })).2 = db
      have hlog : [UndoOp.undoInsert r] ++ rest.map UndoOp.undoInsert =
          (r :: rest).map UndoOp.undoInsert := by simp
      have hrows : (t.rows ++ [r]) ++ rest = t.rows ++ (r :: rest) := by simp
      rw [hlog, hrows]
      unfold Transaction.rollback
      simp only [Bool.not_true, Bool.false_eq_true, if_false]
      rw [applyLog_single]
      rw [foldl_applyUndoAt name _ _ { t with rows := t.rows ++ (r :: rest) }
        (getTable_setTable db name _)]
      rw [show ((r :: rest).map UndoOp.undoInsert).reverse =
        ((r :: rest).reverse).map UndoOp.undoInsert from (List.map_reverse _ _).symm]
      rw [foldl_applyUndo_undoInsert]
      have hfix : ∀ x : Row, (r :: rest).reverse.all (fun rr => !(rowBeq x rr)) =
          (r :: rest).all (fun rr => !(rowBeq x rr)) := fun x => List.all_reverse
      have hkeep : (t.rows ++ (r :: rest)).filter
          (fun x => (r :: rest).reverse.all (fun rr => !(rowBeq x rr))) = t.rows := by
        rw [List.filter_append]
        have h1 : t.rows.filter
            (fun x => (r :: rest).reverse.all (fun rr => !(rowBeq x rr))) = t.rows := by
          apply List.filter_eq_self.mpr
          intro s hs
          rw [hfix s, List.all_eq_true]
          intro rr hrr
          rw [hfresh s hs rr hrr]
          rfl
        have h2 : (r :: rest).filter
            (fun x => (r :: rest).reverse.all (fun rr => !(rowBeq x rr))) = [] := by
          rw [List.filter_eq_nil_iff]
          intro x hx
          rw [hfix x]
          intro hall
          have := List.all_eq_true.mp hall x hx
          rw [hself x hx] at this
          exact absurd this (by simp)
        rw [h1, h2, List.append_nil]
      rw [hkeep, setTable_setTable]
      exact setTable_self db name t hget

/-- Witness for C1's amended theorem: two fresh inserts into a concrete
one-row table, rolled back, restore the database exactly. -/
theorem rollback_after_fresh_inserts_restores_witness :
    (txInsertMany [116] (beginTransaction, dbDup)
        [[Value.intV 2], [Value.intV 3]]).1 = true ∧
    (Transaction.rollback
        (txInsertMany [116] (beginTransaction, dbDup)
          [[Value.intV 2], [Value.intV 3]]).2.1
        (txInsertMany [116] (beginTransaction, dbDup)
          [[Value.intV 2], [Value.intV 3]]).2.2).2 = dbDup :=
  ⟨by decide,
   rollback_after_fresh_inserts_restores dbDup [116] tDup
     [[Value.intV 2], [Value.intV 3]] (by decide) (by decide) (by decide) (by decide)⟩

/-- Counterexample for C2 as stated: from a table satisfying the
primary-key uniqueness invariant, one `Table::update` (which re-validates
nothing) leaves two rows with equal primary-key values. -/
theorem update_breaks_pk_uniqueness :
    pkDistinctB tPk = true ∧
    (tPk.update [Value.intV 1] (fun _ => true)).1 = true ∧
    (tPk.update [Value.intV 1] (fun _ => true)).2.rows =
      [[Value.intV 1], [Value.intV 1]] ∧
    pkDistinctB (tPk.update [Value.intV 1] (fun _ => true)).2 = false := by
  decide

theorem length_toBytesLE (k n : Nat) : (toBytesLE k n).length = k := by
  induction k generalizing n with
  | zero => rfl
  | succ k ih => simp [toBytesLE, ih]

theorem fromBytes_toBytes (k n : Nat) (h : n < 256 ^ k) :
    fromBytesLE (toBytesLE k n) = n := by
  induction k generalizing n with
  | zero =>
    rw [pow_zero] at h
    show (0 : Nat) = n
    omega
  | succ k ih =>
    show n % 256 + 256 * fromBytesLE (toBytesLE k (n / 256)) = n
    rw [ih (n / 256) (by
      rw [Nat.div_lt_iff_lt_mul (by norm_num), ← pow_succ]
      exact h)]
    exact Nat.mod_add_div n 256

theorem readBytes_exact (payload rest : List Nat) (k : Nat)
    (h : payload.length = k) :
    readBytes ⟨payload ++ rest, false⟩ k = (payload, ⟨rest, false⟩) := by
  subst h
  have hle : payload.length ≤ (payload ++ rest).length := by
    rw [List.length_append]
    exact Nat.le_add_right _ _
  unfold readBytes
  rw [if_neg (by simp), if_pos hle, List.take_left' rfl, List.drop_left' rfl]

theorem readNatLE_exact (k n : Nat) (rest : List Nat) (h : n < 256 ^ k) :
    readNatLE ⟨toBytesLE k n ++ rest, false⟩ k = (n, ⟨rest, false⟩) := by
  unfold readNatLE
  rw [readBytes_exact _ _ _ (length_toBytesLE k n)]
  simp only []
  rw [fromBytes_toBytes k n h]

theorem value_roundtrip (v : Value) (rest : List Nat) (h : wfValue v = true) :
    Value.deserialize ⟨Value.serialize v ++ rest, false⟩ = (v, ⟨rest, false⟩) := by
  cases v with
  | nullV =>
    unfold Value.serialize Value.deserialize
    rw [readNatLE_exact 4 0 rest (by norm_num)]
    simp +decide only [if_true, if_false]
  | intV n =>
    have hwf : -(2 ^ 31) ≤ n ∧ n < 2 ^ 31 := of_decide_eq_true h
    have hm : (n % 4294967296).toNat < 256 ^ 4 := by
      have h1 : 0 ≤ n % 4294967296 := Int.emod_nonneg n (by norm_num)
      have h2 : n % 4294967296 < 4294967296 := Int.emod_lt_of_pos n (by norm_num)
      show (n % 4294967296).toNat < 4294967296
      omega
    unfold Value.serialize Value.deserialize
    rw [List.append_assoc, readNatLE_exact 4 1 _ (by norm_num)]
    simp +decide only [if_true, if_false]
    rw [readNatLE_exact 4 (n % 4294967296).toNat rest hm]
    simp only []
    have hval : intOfBytes (n % 4294967296).toNat = n := by
      unfold intOfBytes
      obtain ⟨h1, h2⟩ := hwf
      split <;> omega
    rw [hval]
  | floatV bits =>
    have hwf : bits < 2 ^ 64 := of_decide_eq_true h
    unfold Value.serialize Value.deserialize
    rw [List.append_assoc, readNatLE_exact 4 2 _ (by norm_num)]
    simp +decide only [if_true, if_false]
    rw [readNatLE_exact 8 bits rest (by norm_num at hwf ⊢; omega)]
  | textV s =>
    have hwf : s.length < 2 ^ 64 := by
      unfold wfValue at h
      rw [Bool.and_eq_true] at h
      exact of_decide_eq_true h.1
    unfold Value.serialize Value.deserialize
    rw [List.append_assoc, List.append_assoc, readNatLE_exact 4 3 _ (by norm_num)]
    simp +decide only [if_true, if_false]
    rw [readNatLE_exact 8 s.length _ (by norm_num at hwf ⊢; omega)]
    simp only []
    rw [readBytes_exact s rest s.length rfl]
  | blobV b =>
    have hwf : b.length < 2 ^ 64 := by
      unfold wfValue at h
      rw [Bool.and_eq_true] at h
      exact of_decide_eq_true h.1
    unfold Value.serialize Value.deserialize
    rw [List.append_assoc, List.append_assoc, readNatLE_exact 4 4 _ (by norm_num)]
    simp +decide only [if_true, if_false]
    rw [readNatLE_exact 8 b.length _ (by norm_num at hwf ⊢; omega)]
    simp only []
    rw [readBytes_exact b rest b.length rfl]

theorem deserializeValues_succ (k : Nat) (s : IStream) :
    deserializeValues (k + 1) s =
      ((Value.deserialize s).1 :: (deserializeValues k (Value.deserialize s).2).1,
       (deserializeValues k (Value.deserialize s).2).2) := rfl

theorem values_roundtrip (vs : List Value) :
    ∀ rest : List Nat, (∀ v ∈ vs, wfValue v = true) →
      deserializeValues vs.length ⟨serializeValues vs ++ rest, false⟩ =
        (vs, ⟨rest, false⟩) := by
  induction vs with
  | nil => intro rest _; rfl
  | cons v vs ih =>
    intro rest h
    rw [show serializeValues (v :: vs) = Value.serialize v ++ serializeValues vs
      from rfl, List.append_assoc, List.length_cons, deserializeValues_succ]
    rw [value_roundtrip v _ (h v (by simp))]
    simp only []
    rw [ih rest (fun x hx => h x (by simp [hx]))]

theorem colTypeOfTag_tag (ty : ColType) : colTypeOfTag ty.tag = ty := by
  cases ty <;> rfl

theorem readBytes_one (x : Nat) (rest : List Nat) :
    readBytes ⟨x :: rest, false⟩ 1 = ([x], ⟨rest, false⟩) :=
  readBytes_exact [x] rest 1 rfl

theorem boolByte_decode (b : Bool) :
    (([if b then 1 else 0] : List Nat).getD 0 0 != 0) = b := by
  cases b <;> rfl

theorem column_roundtrip (c : Column) (rest : List Nat) (h : wfColumn c = true) :
    deserializeColumn ⟨serializeColumn c ++ rest, false⟩ = (c, ⟨rest, false⟩) := by
  have hwf : c.name.length < 2 ^ 64 := by
    unfold wfColumn at h
    rw [Bool.and_eq_true] at h
    exact of_decide_eq_true h.1
  have htag : c.type.tag < 256 ^ 4 := by
    cases c.type <;> norm_num [ColType.tag]
  unfold serializeColumn deserializeColumn
  rw [List.append_assoc, List.append_assoc, List.append_assoc,
    List.cons_append, List.cons_append, List.cons_append, List.nil_append]
  rw [readNatLE_exact 8 c.name.length _ (by norm_num at hwf ⊢; omega)]
  simp only []
  rw [readBytes_exact c.name _ c.name.length rfl]
  simp only []
  rw [readNatLE_exact 4 c.type.tag _ htag]
  simp only []
  rw [readBytes_one, readBytes_one, readBytes_one]
  simp only []
  rw [boolByte_decode, boolByte_decode, boolByte_decode, colTypeOfTag_tag]

theorem deserializeColumns_succ (k : Nat) (s : IStream) :
    deserializeColumns (k + 1) s =
      ((deserializeColumn s).1 ::
        (deserializeColumns k (deserializeColumn s).2).1,
       (deserializeColumns k (deserializeColumn s).2).2) := rfl

theorem columns_roundtrip (cs : List Column) :
    ∀ rest : List Nat, (∀ c ∈ cs, wfColumn c = true) →
      deserializeColumns cs.length ⟨serializeColumns cs ++ rest, false⟩ =
        (cs, ⟨rest, false⟩) := by
  induction cs with
  | nil => intro rest _; rfl
  | cons c cs ih =>
    intro rest h
    rw [show serializeColumns (c :: cs) = serializeColumn c ++ serializeColumns cs
      from rfl, List.append_assoc, List.length_cons, deserializeColumns_succ]
    rw [column_roundtrip c _ (h c (by simp))]
    simp only []
    rw [ih rest (fun x hx => h x (by simp [hx]))]

theorem deserializeRows_succ (k : Nat) (s : IStream) :
    deserializeRows (k + 1) s =
      (let cnt := readNatLE s 8
       let vs := deserializeValues cnt.1 cnt.2
       let rs := deserializeRows k vs.2
       (vs.1 :: rs.1, rs.2)) := rfl

theorem rows_roundtrip (rs : List Row) :
    ∀ rest : List Nat, (∀ r ∈ rs, wfRow r = true) →
      deserializeRows rs.length ⟨serializeRows rs ++ rest, false⟩ =
        (rs, ⟨rest, false⟩) := by
  induction rs with
  | nil => intro rest _; rfl
  | cons r rs ih =>
    intro rest h
    have hr := h r (by simp)
    unfold wfRow at hr
    rw [Bool.and_eq_true] at hr
    have hlen : r.length < 2 ^ 64 := of_decide_eq_true hr.1
    have hvals : ∀ v ∈ r, wfValue v = true := List.all_eq_true.mp hr.2
    rw [show serializeRows (r :: rs) = serializeRow r ++ serializeRows rs from rfl,
      show serializeRow r = toBytesLE 8 r.length ++ serializeValues r from rfl,
      List.append_assoc, List.append_assoc, List.length_cons, deserializeRows_succ]
    simp only []
    rw [readNatLE_exact 8 r.length _ (by norm_num at hlen ⊢; omega)]
    simp only []
    rw [values_roundtrip r _ hvals]
    simp only []
    rw [ih rest (fun x hx => h x (by simp [hx]))]

theorem table_roundtrip (t : Table) (rest : List Nat) (h : t.wf = true) :
    Table.deserialize ⟨Table.serialize t ++ rest, false⟩ =
      some (t, ⟨rest, false⟩) := by
  unfold Table.wf at h
  simp only [Bool.and_eq_true] at h
  obtain ⟨⟨⟨⟨⟨⟨h1, h2⟩, h3⟩, h4⟩, h5⟩, h6⟩, h7⟩ := h
  unfold Table.serialize Table.deserialize
  simp only [List.append_assoc]
  rw [readNatLE_exact 8 t.name.length _ (by
    have := of_decide_eq_true h1; norm_num at this ⊢; omega)]
  simp only []
  rw [readBytes_exact t.name _ t.name.length rfl]
  simp only []
  rw [readNatLE_exact 8 t.columns.length _ (by
    have := of_decide_eq_true h3; norm_num at this ⊢; omega)]
  simp only []
  rw [columns_roundtrip t.columns _ (List.all_eq_true.mp h4)]
  simp only []
  rw [show Table.mk? t.name t.columns = some ⟨t.name, t.columns, []⟩ from by
    have hle := of_decide_eq_true h5
    unfold Table.mk?
    rw [if_neg (by omega)]]
  simp only []
  rw [readNatLE_exact 8 t.rows.length _ (by
    have := of_decide_eq_true h6; norm_num at this ⊢; omega)]
  simp only []
  rw [rows_roundtrip t.rows rest (List.all_eq_true.mp h7)]

theorem mapInsert_append_not_mem (l : List (List Nat × Table)) (name : List Nat)
    (t : Table) (h : ∀ e ∈ l, ¬(e.1 = name)) :
    mapInsert l name t = l ++ [(name, t)] := by
  induction l with
  | nil => rfl
  | cons e restl ih =>
    obtain ⟨n, t0⟩ := e
    have hne : ¬(name = n) := fun hh => h (n, t0) (by simp) (by simp [hh])
    simp only [mapInsert, if_neg hne, List.cons_append]
    rw [ih (fun x hx => h x (by simp [hx]))]

theorem loadTables_roundtrip (entries : List (List Nat × Table)) :
    ∀ (acc : List (List Nat × Table)) (rest : List Nat),
      (∀ e ∈ entries, e.1 = e.2.name ∧ e.2.wf = true) →
      (∀ a ∈ acc, ∀ e ∈ entries, ¬(a.1 = e.1)) →
      allPairsB (fun a b => !(decide (a.1 = b.1))) entries = true →
      loadTables entries.length acc ⟨serializeTables entries ++ rest, false⟩ =
        some (acc ++ entries, ⟨rest, false⟩) := by
  induction entries with
  | nil => intro acc rest _ _ _; simp [loadTables, serializeTables]
  | cons e es ih =>
    obtain ⟨n, t⟩ := e
    intro acc rest hwf hdisj hpair
    have hnt : n = t.name := (hwf (n, t) (by simp)).1
    simp only [allPairsB, Bool.and_eq_true] at hpair
    obtain ⟨hhead, htail⟩ := hpair
    rw [show serializeTables ((n, t) :: es) =
      Table.serialize t ++ serializeTables es from rfl, List.append_assoc,
      List.length_cons]
    rw [show ∀ s, loadTables (es.length + 1) acc s =
        (match Table.deserialize s with
         | none => none
         | some (tt, s1) => loadTables es.length (mapInsert acc tt.name tt) s1)
      from fun s => rfl]
    rw [table_roundtrip t _ (hwf (n, t) (by simp)).2]
    simp only []
    rw [mapInsert_append_not_mem acc t.name t (fun a ha => by
      have h2 := hdisj a ha (n, t) (by simp)
      rw [← hnt]
      exact h2)]
    have hdisj2 : ∀ a ∈ acc ++ [(t.name, t)], ∀ e2 ∈ es, ¬(a.1 = e2.1) := by
      intro a ha e2 he2
      rcases List.mem_append.mp ha with hacc | hsing
      · exact hdisj a hacc e2 (by simp [he2])
      · have haeq : a = (t.name, t) := by simpa using hsing
        subst haeq
        have h3 := List.all_eq_true.mp hhead e2 he2
        rw [Bool.not_eq_true'] at h3
        have h4 : ¬(n = e2.1) := of_decide_eq_false h3
        rw [← hnt]
        exact h4
    rw [ih (acc ++ [(t.name, t)]) rest (fun x hx => hwf x (by simp [hx]))
      hdisj2 htail]
    rw [hnt]
    simp [List.append_assoc]

/-- Claim C3 (confirmed): saving a wellformed database (bounded counts,
serialisable byte values, tables registered under their own pairwise
distinct names) and loading the resulting byte stream into any database
succeeds and reproduces the very same table map: identical names, schemas
(column names, types, primary_key/not_null/unique flags) and rows, with row
order preserved. -/
theorem save_load_roundtrip (db dbAny : Database) (h : db.wf = true) :
    dbAny.loadFromFile db.saveBytes = some (true, db) := by
  unfold Database.wf at h
  simp only [Bool.and_eq_true] at h
  obtain ⟨⟨hlen, hall⟩, hpair⟩ := h
  unfold Database.saveBytes Database.loadFromFile
  simp only []
  rw [readNatLE_exact 8 db.tables.length _ (by
    have := of_decide_eq_true hlen; norm_num at this ⊢; omega)]
  simp only []
  rw [show serializeTables db.tables = serializeTables db.tables ++ ([] : List Nat)
    from (List.append_nil _).symm]
  have hentries : ∀ e ∈ db.tables, e.1 = e.2.name ∧ e.2.wf = true := by
    intro e he
    have h2 := List.all_eq_true.mp hall e he
    rw [Bool.and_eq_true] at h2
    exact ⟨of_decide_eq_true h2.1, h2.2⟩
  rw [loadTables_roundtrip db.tables [] [] hentries
    (fun a ha => absurd ha (by simp)) hpair]
  simp

/-- Witness for C3: a concrete two-column three-row database survives the
save/load round trip exactly. -/
theorem save_load_roundtrip_witness :
    Database.wf dbUsers = true ∧
    Database.loadFromFile ⟨[]⟩ (Database.saveBytes dbUsers) =
      some (true, dbUsers) :=
  ⟨by decide, save_load_roundtrip dbUsers ⟨[]⟩ (by decide)⟩

theorem beq_symm_of_lawful [BEq α] [LawfulBEq α] (x y : α) : (x == y) = (y == x) := by
  by_cases h : x = y
  · subst h; rfl
  · rw [beq_eq_false_iff_ne.mpr h, beq_eq_false_iff_ne.mpr (Ne.symm h)]

theorem floatEqBits_symm (a b : Nat) : floatEqBits a b = floatEqBits b a := by
  unfold floatEqBits
  rw [Bool.or_comm (floatIsNaN a), beq_symm_of_lawful a b,
    Bool.and_comm (floatIsZero a)]

theorem value_beq_symm (a b : Value) : Value.beq a b = Value.beq b a := by
  cases a <;> cases b <;> simp only [Value.beq]
  · exact beq_symm_of_lawful _ _
  · exact floatEqBits_symm _ _
  · exact beq_symm_of_lawful _ _
  · exact beq_symm_of_lawful _ _

theorem rowClash_symm (cols : List Column) (a b : Row) :
    rowClash cols a b = rowClash cols b a := by
  unfold rowClash
  have h1 : (match cols.findIdx? (fun c => c.primary_key) with
      | some i => Value.beq (a.getD i Value.nullV) (b.getD i Value.nullV)
      | none => false) =
      (match cols.findIdx? (fun c => c.primary_key) with
      | some i => Value.beq (b.getD i Value.nullV) (a.getD i Value.nullV)
      | none => false) := by
    cases cols.findIdx? (fun c => c.primary_key) with
    | none => rfl
    | some i => exact value_beq_symm _ _
  have h2 : ((List.range cols.length).any fun i =>
      (cols.getD i defaultColumn).unique &&
        Value.beq (a.getD i Value.nullV) (b.getD i Value.nullV)) =
      ((List.range cols.length).any fun i =>
      (cols.getD i defaultColumn).unique &&
        Value.beq (b.getD i Value.nullV) (a.getD i Value.nullV)) := by
    congr 1
    funext i
    rw [value_beq_symm]
  rw [h1, h2]

theorem insert_of_no_clash (nm : List Nat) (cols : List Column) (cur : List Row)
    (d : Row) (hlen : d.length = cols.length)
    (h : ∀ er ∈ cur, rowClash cols er d = false) :
    Table.insert ⟨nm, cols, cur⟩ d = (true, ⟨nm, cols, cur ++ [d]⟩) := by
  have hpk : pkConflict ⟨nm, cols, cur⟩ d = false := by
    show (match cols.findIdx? (fun c => c.primary_key) with
      | some i => cur.any fun er =>
          Value.beq (er.getD i Value.nullV) (d.getD i Value.nullV)
      | none => false) = false
    cases hidx : cols.findIdx? (fun c => c.primary_key) with
    | none => rfl
    | some i =>
      rw [List.any_eq_false]
      intro er her hcontra
      have hc := h er her
      unfold rowClash at hc
      rw [hidx, Bool.or_eq_false_iff] at hc
      have hc1 : Value.beq (er.getD i Value.nullV) (d.getD i Value.nullV) = false := hc.1
      rw [hc1] at hcontra
      exact absurd hcontra (by simp)
  have hun : uniqueConflict ⟨nm, cols, cur⟩ d = false := by
    show ((List.range cols.length).any fun i =>
      (cols.getD i defaultColumn).unique &&
        cur.any fun er =>
          Value.beq (er.getD i Value.nullV) (d.getD i Value.nullV)) = false
    rw [List.any_eq_false]
    intro i hi hcontra
    rw [Bool.and_eq_true] at hcontra
    obtain ⟨hu, hany⟩ := hcontra
    obtain ⟨er, her, hbeq⟩ := List.any_eq_true.mp hany
    have hc := h er her
    unfold rowClash at hc
    rw [Bool.or_eq_false_iff] at hc
    have hc2 := hc.2
    rw [List.any_eq_false] at hc2
    exact (hc2 i hi) (by rw [hu, hbeq]; exact Bool.and_self true)
  unfold Table.insert
  simp [hlen, hpk, hun]

theorem foldl_insert_all (nm : List Nat) (cols : List Column) (ds : List Row) :
    ∀ cur : List Row,
      (∀ d ∈ ds, d.length = cols.length) →
      List.Pairwise (fun a b => rowClash cols a b = false) (cur ++ ds) →
      ds.foldl (fun (tb : Table) (r : Row) => (tb.insert r).2)
          (⟨nm, cols, cur⟩ : Table) = (⟨nm, cols, cur ++ ds⟩ : Table) := by
  induction ds with
  | nil => intro cur _ _; simp
  | cons d ds ih =>
    intro cur hlen hpair
    simp only [List.foldl_cons]
    have hcur : ∀ er ∈ cur, rowClash cols er d = false := by
      intro er her
      exact (List.pairwise_append.mp hpair).2.2 er her d (by simp)
    show ds.foldl (fun (tb : Table) (r : Row) => (tb.insert r).2)
        ((Table.insert ⟨nm, cols, cur⟩ d).2) = (⟨nm, cols, cur ++ d :: ds⟩ : Table)
    rw [insert_of_no_clash nm cols cur d (hlen d (by simp)) hcur]
    show ds.foldl (fun (tb : Table) (r : Row) => (tb.insert r).2)
        ⟨nm, cols, cur ++ [d]⟩ = (⟨nm, cols, cur ++ d :: ds⟩ : Table)
    have hpair' : List.Pairwise (fun a b => rowClash cols a b = false)
        ((cur ++ [d]) ++ ds) := by
      rw [List.append_assoc, List.singleton_append]
      exact hpair
    rw [ih (cur ++ [d]) (fun x hx => hlen x (by simp [hx])) hpair']
    simp

theorem allPairsB_iff_pairwise (f : α → α → Bool) (l : List α) :
    allPairsB f l = true ↔ l.Pairwise (fun a b => f a b = true) := by
  induction l with
  | nil => simp [allPairsB]
  | cons a l ih =>
    simp [allPairsB, List.all_eq_true, ih, List.pairwise_cons]

theorem length_filter_not_lt (p : α → Bool) (l : List α) (h : l.any p = true) :
    (l.filter fun x => !(p x)).length < l.length := by
  induction l with
  | nil => simp at h
  | cons a l ih =>
    rw [List.filter_cons]
    by_cases hp : p a = true
    · simp only [hp, Bool.not_true, Bool.false_eq_true, if_false, List.length_cons]
      exact Nat.lt_succ_of_le (List.length_filter_le _ _)
    · have hp2 : p a = false := Bool.eq_false_iff.mpr hp
      rw [List.any_cons, hp2, Bool.false_or] at h
      simp only [hp2, Bool.not_false, if_true, List.length_cons]
      exact Nat.succ_lt_succ (ih h)

theorem filter_split_ne (p : Row → Bool) :
    ∀ (l1 : List Row) (a : Row) (l2 : List Row) (b : Row) (l3 : List Row),
      p a = true → p b = false →
      (l1 ++ a :: (l2 ++ b :: l3)).filter (fun r => !(p r)) ++
        (l1 ++ a :: (l2 ++ b :: l3)).filter p ≠ l1 ++ a :: (l2 ++ b :: l3) := by
  intro l1
  induction l1 with
  | nil =>
    intro a l2 b l3 ha hb heq
    rw [List.nil_append, List.filter_cons, List.filter_cons] at heq
    rw [ha] at heq
    simp only [Bool.not_true, Bool.false_eq_true, if_false, if_true] at heq
    cases hF : (l2 ++ b :: l3).filter (fun r => !(p r)) with
    | nil =>
      have hbmem : b ∈ (l2 ++ b :: l3).filter (fun r => !(p r)) :=
        List.mem_filter.mpr ⟨by simp, by rw [hb]; rfl⟩
      rw [hF] at hbmem
      simp at hbmem
    | cons f0 F =>
      rw [hF, List.cons_append] at heq
      injection heq with h1 _
      have hpf0 : (!(p f0)) = true := by
        have : f0 ∈ (l2 ++ b :: l3).filter (fun r => !(p r)) := by
          rw [hF]; exact List.mem_cons_self _ _
        exact (List.mem_filter.mp this).2
      rw [h1, ha] at hpf0
      exact absurd hpf0 (by simp)
  | cons c l1' ih =>
    intro a l2 b l3 ha hb heq
    rw [List.cons_append, List.filter_cons, List.filter_cons] at heq
    by_cases hc : p c = true
    · rw [hc] at heq
      simp only [Bool.not_true, Bool.false_eq_true, if_false, if_true] at heq
      cases hF : (l1' ++ a :: (l2 ++ b :: l3)).filter (fun r => !(p r)) with
      | nil =>
        have hbmem : b ∈ (l1' ++ a :: (l2 ++ b :: l3)).filter (fun r => !(p r)) :=
          List.mem_filter.mpr ⟨by simp, by rw [hb]; rfl⟩
        rw [hF] at hbmem
        simp at hbmem
      | cons f0 F =>
        rw [hF, List.cons_append] at heq
        injection heq with h1 _
        have hpf0 : (!(p f0)) = true := by
          have : f0 ∈ (l1' ++ a :: (l2 ++ b :: l3)).filter (fun r => !(p r)) := by
            rw [hF]; exact List.mem_cons_self _ _
          exact (List.mem_filter.mp this).2
        rw [h1, hc] at hpf0
        exact absurd hpf0 (by simp)
    · have hc2 : p c = false := Bool.eq_false_iff.mpr hc
      rw [hc2] at heq
      simp only [Bool.not_false, if_true, Bool.false_eq_true, if_false] at heq
      rw [List.cons_append] at heq
      injection heq with _ h2
      exact ih a l2 b l3 ha hb h2

/-- Claim C9 (confirmed): a successful transactional remove followed by
rollback re-inserts the deleted rows, via `Table::insert`, at the end of the
table in their original relative order: the resulting store is the
survivors followed by the deleted rows — the original multiset as a
permutation — and whenever a removed row originally preceded a surviving
row the original physical order is not restored.  (Hypotheses: every row
has schema arity and no two rows clash on the primary-key or a unique
column, so the reinsertion passes the constraint checks.) -/
theorem remove_rollback_appends_deleted
    (db : Database) (name : List Nat) (t : Table) (p : Row → Bool)
    (hget : db.getTable name = some t)
    (harity : ∀ r ∈ t.rows, r.length = t.columns.length)
    (hcf : allPairsB (fun a b => !(rowClash t.columns a b)) t.rows = true)
    (hmatch : t.rows.any p = true) :
    (Transaction.remove beginTransaction db name p).1 = true ∧
    (Transaction.rollback (Transaction.remove beginTransaction db name p).2.1
        (Transaction.remove beginTransaction db name p).2.2).2 =
      db.setTable name
        { t with rows := t.rows.filter (fun r => !(p r)) ++ t.rows.filter p } ∧
    (t.rows.filter (fun r => !(p r)) ++ t.rows.filter p).Perm t.rows ∧
    (∀ l1 a l2 b l3, t.rows = l1 ++ a :: (l2 ++ b :: l3) →
      p a = true → p b = false →
      t.rows.filter (fun r => !(p r)) ++ t.rows.filter p ≠ t.rows) := by
  have hres : decide ((t.rows.filter fun r => !(p r)).length < t.rows.length) = true :=
    decide_eq_true (length_filter_not_lt p t.rows hmatch)
  have hne : (t.rows.filter p).isEmpty = false := by
    obtain ⟨x, hx, hpx⟩ := List.any_eq_true.mp hmatch
    rcases hemp : t.rows.filter p with _ | _
    · have : x ∈ t.rows.filter p := List.mem_filter.mpr ⟨hx, hpx⟩
      rw [hemp] at this
      simp at this
    · rfl
  have hstep : Transaction.remove beginTransaction db name p =
      (true, ⟨true, [(name, [UndoOp.undoRemove (t.rows.filter p)])]⟩,
       db.setTable name { t with rows := t.rows.filter (fun r => !(p r)) }) := by
    unfold Transaction.remove
    rw [show beginTransaction = (⟨true, []⟩ : TxState) from rfl, hget]
    show (decide ((t.rows.filter fun r => !(p r)).length < t.rows.length),
        if decide ((t.rows.filter fun r => !(p r)).length < t.rows.length) &&
            !(t.rows.filter p).isEmpty then
          (⟨true, logAdd [] name (.undoRemove (t.rows.filter p))⟩ : TxState)
        else ⟨true, []⟩,
        db.setTable name { t with rows := t.rows.filter (fun r => !(p r)) }) = _
    rw [hres, hne]
    rfl
  have hperm : (t.rows.filter (fun r => !(p r)) ++ t.rows.filter p).Perm t.rows := by
    have hp2 := List.filter_append_perm (fun r => !(p r)) t.rows
    have hcongr : (t.rows.filter fun x => !(!(p x))) = t.rows.filter p := by
      apply List.filter_congr
      intro x _
      rw [Bool.not_not]
    rw [hcongr] at hp2
    exact hp2
  have hpw : List.Pairwise (fun a b => rowClash t.columns a b = false)
      (t.rows.filter (fun r => !(p r)) ++ t.rows.filter p) := by
    have h0 := (allPairsB_iff_pairwise _ _).mp hcf
    have h1 : List.Pairwise (fun a b => rowClash t.columns a b = false) t.rows :=
      h0.imp (fun h => by rwa [Bool.not_eq_true'] at h)
    have hsymm : ∀ {x y : Row}, rowClash t.columns x y = false →
        rowClash t.columns y x = false := by
      intro x y h
      rw [rowClash_symm]
      exact h
    exact (List.Perm.pairwise_iff hsymm hperm).mpr h1
  refine ⟨by rw [hstep], ?_, hperm, ?_⟩
  · rw [hstep]
    simp only []
    unfold Transaction.rollback
    simp only [Bool.not_true, Bool.false_eq_true, if_false]
    rw [applyLog_single]
    show List.foldl (fun d op => applyUndoAt d name op)
        (db.setTable name { t with rows := t.rows.filter (fun r => !(p r)) })
        [UndoOp.undoRemove (t.rows.filter p)] =
      db.setTable name
        { t with rows := t.rows.filter (fun r => !(p r)) ++ t.rows.filter p }
    rw [foldl_applyUndoAt name _ _ { t with rows := t.rows.filter (fun r => !(p r)) }
      (getTable_setTable db name _), setTable_setTable]
    congr 1
    show (t.rows.filter p).foldl (fun tb r => (tb.insert r).2)
        ⟨t.name, t.columns, t.rows.filter (fun r => !(p r))⟩ =
      { t with rows := t.rows.filter (fun r => !(p r)) ++ t.rows.filter p }
    exact foldl_insert_all t.name t.columns (t.rows.filter p)
      (t.rows.filter (fun r => !(p r)))
      (fun d hd => harity d (List.mem_of_mem_filter hd)) hpw
  · intro l1 a l2 b l3 hsplit ha hb
    rw [hsplit]
    exact filter_split_ne p l1 a l2 b l3 ha hb

/-- Witness for C9 at a concrete three-row table: removing the middle row
and rolling back appends it at the end, a permutation of but not equal to
the original store. -/
theorem remove_rollback_appends_deleted_witness :
    (Transaction.remove beginTransaction dbUsers [116]
      (fun r => Value.beq (r.getD 0 Value.nullV) (Value.intV 2))).1 = true ∧
    (Transaction.rollback
        (Transaction.remove beginTransaction dbUsers [116]
          (fun r => Value.beq (r.getD 0 Value.nullV) (Value.intV 2))).2.1
        (Transaction.remove beginTransaction dbUsers [116]
          (fun r => Value.beq (r.getD 0 Value.nullV) (Value.intV 2))).2.2).2 =
      dbUsers.setTable [116]
        { tUsers with rows :=
            tUsers.rows.filter (fun r =>
              !(Value.beq (r.getD 0 Value.nullV) (Value.intV 2))) ++
            tUsers.rows.filter (fun r =>
              Value.beq (r.getD 0 Value.nullV) (Value.intV 2)) } ∧
    (tUsers.rows.filter (fun r =>
        !(Value.beq (r.getD 0 Value.nullV) (Value.intV 2))) ++
      tUsers.rows.filter (fun r =>
        Value.beq (r.getD 0 Value.nullV) (Value.intV 2))).Perm tUsers.rows ∧
    (∀ l1 a l2 b l3, tUsers.rows = l1 ++ a :: (l2 ++ b :: l3) →
      Value.beq (a.getD 0 Value.nullV) (Value.intV 2) = true →
      Value.beq (b.getD 0 Value.nullV) (Value.intV 2) = false →
      tUsers.rows.filter (fun r =>
        !(Value.beq (r.getD 0 Value.nullV) (Value.intV 2))) ++
      tUsers.rows.filter (fun r =>
        Value.beq (r.getD 0 Value.nullV) (Value.intV 2)) ≠ tUsers.rows) :=
  remove_rollback_appends_deleted dbUsers [116] tUsers
    (fun r => Value.beq (r.getD 0 Value.nullV) (Value.intV 2))
    (by decide) (by decide) (by decide) (by decide)


end LocalDB
